import Mathlib

/-
Verification of the DocuMind retrieval engine.

Shallow embedding of `src/backend/ocr/text_cleaner.py`,
`src/backend/knowledge/store.py` and the store-facing parts of
`src/backend/main.py`.  Text is modelled as `List Char`; every Python
`re` operation used by the code is embedded as a dedicated scanner with
the leftmost, non-overlapping, greedy matching semantics of `re.sub` /
`re.findall` / `re.split`.  rapidfuzz scores, which Python computes as
floats, are modelled as exact rationals: `fuzz.ratio(a, b)` is
`200 * lcs(a, b) / (len a + len b)`, the normalized InDel similarity.
-/

namespace DocuMind

/-! ### Character classes (Python `\s`, `\d`, `[ \t]`, `str.lower`) -/

/-- Python `\s` for ASCII text: space, tab, newline, carriage return,
vertical tab, form feed. -/
def wsChar (c : Char) : Bool :=
  c == ' ' || c == '\t' || c == '\n' || c == '\r' ||
  c == Char.ofNat 11 || c == Char.ofNat 12

/-- Python `[ \t]`: horizontal whitespace. -/
def hwsChar (c : Char) : Bool := c == ' ' || c == '\t'

/-- Python `\d` for ASCII text. -/
def digitChar (c : Char) : Bool := '0' ≤ c && c ≤ '9'

/-- ASCII `str.lower`. -/
def lowerChar (c : Char) : Char :=
  if 'A' ≤ c && c ≤ 'Z' then Char.ofNat (c.toNat + 32) else c

def lowerStr (l : List Char) : List Char := l.map lowerChar

/-! ### Python string primitives -/

/-- Test whether `l` starts with `pat`. -/
def leadsWith : List Char → List Char → Bool
  | [], _ => true
  | _ :: _, [] => false
  | p :: ps, c :: cs => p == c && leadsWith ps cs

/-- Python `pat in l` (substring test; true for an empty pattern). -/
def hasSub (pat : List Char) : List Char → Bool
  | [] => leadsWith pat []
  | c :: cs => leadsWith pat (c :: cs) || hasSub pat cs

/-- Python `l.find(pat)`: index of the first occurrence, if any. -/
def findIdxSub (pat : List Char) : List Char → Option Nat
  | [] => if leadsWith pat [] then some 0 else none
  | c :: cs =>
    if leadsWith pat (c :: cs) then some 0
    else (findIdxSub pat cs).map (· + 1)

/-- Python `l.rfind(c)` for a single character: index of the last
occurrence, if any. -/
def lastIdxOfChar (c : Char) (l : List Char) : Option Nat :=
  match l.reverse.findIdx? (· == c) with
  | some i => some (l.length - 1 - i)
  | none => none

/-- Python `l.rfind(pat)` for a two-character pattern (used for `". "`). -/
def lastIdxOfSub (pat : List Char) (l : List Char) : Option Nat :=
  match (List.range l.length).filter (fun i => leadsWith pat (l.drop i)) with
  | [] => none
  | i :: is => some ((i :: is).foldl max i)

/-- Python `str.strip()`. -/
def stripWs (l : List Char) : List Char :=
  ((l.dropWhile wsChar).reverse.dropWhile wsChar).reverse

theorem dropWhileLen (p : Char → Bool) (l : List Char) :
    (l.dropWhile p).length ≤ l.length := by
  induction l with
  | nil => simp
  | cons c cs ih =>
    by_cases h : p c
    · simp only [List.dropWhile_cons_of_pos h, List.length_cons]
      omega
    · simp [List.dropWhile_cons_of_neg h]

theorem takeWhileLen (p : Char → Bool) (l : List Char) :
    (l.takeWhile p).length ≤ l.length := by
  induction l with
  | nil => simp
  | cons c cs ih =>
    by_cases h : p c
    · simp only [List.takeWhile_cons_of_pos h, List.length_cons]
      omega
    · simp [List.takeWhile_cons_of_neg h]

/-- Python `str.split()` with no argument: whitespace-separated words,
no empty entries. -/
def splitWsList (l : List Char) : List (List Char) :=
  match h : l.dropWhile wsChar with
  | [] => []
  | c :: cs =>
    (c :: cs.takeWhile (fun x => !wsChar x)) ::
      splitWsList (cs.dropWhile (fun x => !wsChar x))
termination_by l.length
decreasing_by
  have h1 : (l.dropWhile wsChar).length ≤ l.length := dropWhileLen wsChar l
  rw [h] at h1
  have h2 : (cs.dropWhile (fun x => !wsChar x)).length ≤ cs.length :=
    dropWhileLen _ cs
  simp only [List.length_cons] at h1
  omega

theorem leadsWith_true_length {p l : List Char} (h : leadsWith p l = true) :
    p.length ≤ l.length := by
  induction p generalizing l with
  | nil => simp
  | cons a as ih =>
    cases l with
    | nil => simp [leadsWith] at h
    | cons c cs =>
      simp only [leadsWith, Bool.and_eq_true] at h
      simpa using Nat.succ_le_succ (ih h.2)

/-- Python `str.replace(old, new)`: replace every leftmost,
non-overlapping occurrence.  The implementation is only ever called with
non-empty `old` (the table in `fix_ocr_artifacts`); an empty `old` is
returned unchanged. -/
def replaceAll (old new : List Char) (l : List Char) : List Char :=
  if hO : old.isEmpty then l
  else if hL : leadsWith old l then new ++ replaceAll old new (l.drop old.length)
  else
    match l with
    | [] => []
    | c :: cs => c :: replaceAll old new cs
termination_by l.length
decreasing_by
  · have h1 : old.length ≤ l.length := leadsWith_true_length hL
    have h2 : 0 < old.length := by
      cases old with
      | nil => simp at hO
      | cons _ _ => simp
    have h3 : 0 < l.length := lt_of_lt_of_le h2 h1
    simp only [List.length_drop]
    omega
  · simp

/-! ### `text_cleaner.fix_ocr_artifacts` -/

/-- The literal replacement table of `fix_ocr_artifacts` (store order =
Python dict insertion order). -/
def fixPairs : List (List Char × List Char) :=
  [("websitelapp".toList, "website/app".toList),
   ("changelmodify".toList, "change/modify".toList),
   ("whenan".toList, "when an".toList),
   ("a8".toList, "as".toList),
   ("S1O".toList, "S10".toList),
   ("SI:".toList, "S1.".toList),
   ("S2 ".toList, "S2. ".toList),
   ("(e.g\"".toList, "(e.g.".toList),
   ("Depending o ".toList, "Depending on ".toList)]

def fix_ocr_artifacts (l : List Char) : List Char :=
  fixPairs.foldl (fun t p => replaceAll p.1 p.2 t) l

/-! ### `text_cleaner.normalize_whitespace`

Three `re.sub` passes, each embedded as a scanner. -/

/-- Python `re.sub(r'[ \t]{2,}', ' ', ·)`: collapse runs of two or more
horizontal whitespace characters into one space. -/
def collapseHWS : List Char → List Char
  | [] => []
  | c :: cs =>
    if hwsChar c && (cs.head?.elim false hwsChar) then
      ' ' :: collapseHWS (cs.dropWhile hwsChar)
    else c :: collapseHWS cs
termination_by l => l.length
decreasing_by
  · have := dropWhileLen hwsChar cs
    simp only [List.length_cons]
    omega
  · simp

/-- Characters of the class `[;:,.]`. -/
def punctChar (c : Char) : Bool := c == ';' || c == ':' || c == ',' || c == '.'

/-- Python `re.sub(r'\s+([;:,.])', r'\1', ·)`: delete whitespace runs that
immediately precede one of `; : , .`. -/
def wsBeforePunct : List Char → List Char
  | [] => []
  | c :: cs =>
    if wsChar c then
      match h : cs.dropWhile wsChar with
      | p :: rs =>
        if punctChar p then p :: wsBeforePunct rs
        else c :: wsBeforePunct cs
      | [] => c :: wsBeforePunct cs
    else c :: wsBeforePunct cs
termination_by l => l.length
decreasing_by
  · have h1 : (cs.dropWhile wsChar).length ≤ cs.length := dropWhileLen wsChar cs
    rw [h] at h1
    simp only [List.length_cons] at h1 ⊢
    omega
  · simp
  · simp
  · simp

/-- Python `re.sub(r'\n{3,}', '\n\n', ·)`: collapse runs of three or more
newlines into exactly two. -/
def collapseNL : List Char → List Char
  | [] => []
  | c :: cs =>
    if c == '\n' && leadsWith ['\n', '\n'] cs then
      '\n' :: '\n' :: collapseNL (cs.dropWhile (fun x => x == '\n'))
    else c :: collapseNL cs
termination_by l => l.length
decreasing_by
  · have := dropWhileLen (fun x => x == '\n') cs
    simp only [List.length_cons]
    omega
  · simp

def normalize_whitespace (l : List Char) : List Char :=
  collapseNL (wsBeforePunct (collapseHWS l))

/-! ### `text_cleaner.split_into_sections`

Three `re.sub` passes.  Lookbehind `(?<!\n)` refers to the character of
the input just before the current scan position, so the scanners carry
that character (`prev`, `none` at the start of the string) along. -/

def takeDigits (l : List Char) : List Char := l.takeWhile digitChar

/-- Attempt of `\s*(S\d+[\.:])(?!\n)` at the head of `l`: returns the
digits, the `.`/`:` delimiter and the remainder after the match. -/
def sectionMatchAt (l : List Char) : Option (List Char × Char × List Char) :=
  match l.dropWhile wsChar with
  | c :: r =>
    if c == 'S' then
      if (takeDigits r).isEmpty then none
      else
        match r.drop (takeDigits r).length with
        | p :: rest =>
          if (p == '.' || p == ':') && rest.head? != some '\n' then
            some (takeDigits r, p, rest)
          else none
        | [] => none
    else none
  | [] => none

theorem sectionMatchAt_length {l ds p rest} (h : sectionMatchAt l = some (ds, p, rest)) :
    rest.length < l.length := by
  have h1 : (l.dropWhile wsChar).length ≤ l.length := dropWhileLen wsChar l
  unfold sectionMatchAt at h
  split at h
  case _ c r heq =>
    rw [heq] at h1
    split at h
    · split at h
      · exact absurd h (by simp)
      · split at h
        case _ q rest' hr =>
          split at h
          · simp only [Option.some.injEq, Prod.mk.injEq] at h
            obtain ⟨-, -, rfl⟩ := h
            have h2 : (r.drop (takeDigits r).length).length =
                r.length - (takeDigits r).length := by simp
            rw [hr] at h2
            simp only [List.length_cons] at h1 h2
            omega
          · exact absurd h (by simp)
        case _ hr => exact absurd h (by simp)
    · exact absurd h (by simp)
  case _ heq => exact absurd h (by simp)

/-- Python `re.sub(r'(?<!\n)\s*(S\d+[\.:])(?!\n)', r'\n\n\1', ·)`. -/
def sectionSubAux (prev : Option Char) : List Char → List Char
  | [] => []
  | c :: cs =>
    if prev != some '\n' then
      match h : sectionMatchAt (c :: cs) with
      | some (ds, p, rest) =>
        '\n' :: '\n' :: 'S' :: (ds ++ p :: sectionSubAux (some p) rest)
      | none => c :: sectionSubAux (some c) cs
    else c :: sectionSubAux (some c) cs
termination_by l => l.length
decreasing_by
  · exact sectionMatchAt_length h
  · simp
  · simp

def sectionSub (l : List Char) : List Char := sectionSubAux none l

/-- Attempt of `\s*(\d+\.\d+)\s*` at the head of `l`: returns the two
digit groups, the last character consumed by the match (for the next
lookbehind) and the remainder. -/
def decimalMatchAt (l : List Char) : Option (List Char × List Char × Char × List Char) :=
  if (takeDigits (l.dropWhile wsChar)).isEmpty then none
  else
    match (l.dropWhile wsChar).drop (takeDigits (l.dropWhile wsChar)).length with
    | q :: r2 =>
      if q == '.' then
        if (takeDigits r2).isEmpty then none
        else
          some (takeDigits (l.dropWhile wsChar), takeDigits r2,
            ((takeDigits r2 ++
              (r2.drop (takeDigits r2).length).takeWhile wsChar).reverse.head?).getD '0',
            (r2.drop (takeDigits r2).length).dropWhile wsChar)
      else none
    | [] => none

theorem decimalMatchAt_length {l d1 d2 c rest}
    (h : decimalMatchAt l = some (d1, d2, c, rest)) : rest.length < l.length := by
  have h1 : (l.dropWhile wsChar).length ≤ l.length := dropWhileLen wsChar l
  unfold decimalMatchAt at h
  split at h
  · exact absurd h (by simp)
  next he =>
    split at h
    next q r2 hr =>
      split at h
      · split at h
        · exact absurd h (by simp)
        · simp only [Option.some.injEq, Prod.mk.injEq] at h
          obtain ⟨-, -, -, rfl⟩ := h
          have h3 : ((r2.drop (takeDigits r2).length).dropWhile wsChar).length ≤
              (r2.drop (takeDigits r2).length).length :=
            dropWhileLen wsChar _
          have h2 : (r2.drop (takeDigits r2).length).length =
              r2.length - (takeDigits r2).length := by simp
          have h4 : ((l.dropWhile wsChar).drop (takeDigits (l.dropWhile wsChar)).length).length =
              (l.dropWhile wsChar).length - (takeDigits (l.dropWhile wsChar)).length := by
            simp
          rw [hr] at h4
          have h5 : 0 < (takeDigits (l.dropWhile wsChar)).length := by
            cases hq : takeDigits (l.dropWhile wsChar) with
            | nil => rw [hq] at he; simp at he
            | cons _ _ => simp
          simp only [List.length_cons] at h4
          omega
      · exact absurd h (by simp)
    next hr => exact absurd h (by simp)

/-- Python `re.sub(r'(?<!\n)\s*(\d+\.\d+)\s*', r' [\1]\n', ·)`. -/
def decimalSubAux (prev : Option Char) : List Char → List Char
  | [] => []
  | c :: cs =>
    if prev != some '\n' then
      match h : decimalMatchAt (c :: cs) with
      | some (d1, d2, lastc, rest) =>
        ' ' :: '[' :: (d1 ++ '.' :: d2 ++ [']', '\n']) ++ decimalSubAux (some lastc) rest
      | none => c :: decimalSubAux (some c) cs
    else c :: decimalSubAux (some c) cs
termination_by l => l.length
decreasing_by
  · exact decimalMatchAt_length h
  · simp
  · simp

def decimalSub (l : List Char) : List Char := decimalSubAux none l

/-- Attempt of `--- Page \d+ ---` at the head of `l`: returns the page
digits and the remainder. -/
def pageMarkAt (l : List Char) : Option (List Char × List Char) :=
  if leadsWith "--- Page ".toList l then
    let r := l.drop 9
    let ds := takeDigits r
    if ds.isEmpty then none
    else if leadsWith " ---".toList (r.drop ds.length) then
      some (ds, (r.drop ds.length).drop 4)
    else none
  else none

theorem pageMarkAt_length {l ds rest} (h : pageMarkAt l = some (ds, rest)) :
    rest.length < l.length := by
  unfold pageMarkAt at h
  by_cases h9 : leadsWith "--- Page ".toList l
  · rw [if_pos h9] at h
    have h1 : 9 ≤ l.length := by
      have := leadsWith_true_length h9
      simpa using this
    by_cases he : (takeDigits (l.drop 9)).isEmpty
    · rw [if_pos he] at h; exact absurd h (by simp)
    · rw [if_neg he] at h
      have hd : 0 < (takeDigits (l.drop 9)).length := by
        cases hq : takeDigits (l.drop 9) with
        | nil => rw [hq] at he; simp at he
        | cons _ _ => simp
      by_cases h4 : leadsWith " ---".toList ((l.drop 9).drop (takeDigits (l.drop 9)).length)
      · rw [if_pos h4] at h
        injection h with h2
        have hrest : rest = ((l.drop 9).drop (takeDigits (l.drop 9)).length).drop 4 := by
          injection h2 with ha hb; exact hb.symm
        subst hrest
        simp only [List.length_drop]
        omega
      · rw [if_neg h4] at h; exact absurd h (by simp)
  · rw [if_neg h9] at h; exact absurd h (by simp)

/-- Python `re.sub(r'(?<!\n)(--- Page \d+ ---)', r'\n\n\1\n', ·)`. -/
def pageSubAux (prev : Option Char) : List Char → List Char
  | [] => []
  | c :: cs =>
    if prev != some '\n' then
      match h : pageMarkAt (c :: cs) with
      | some (ds, rest) =>
        '\n' :: '\n' :: ("--- Page ".toList ++ ds ++ " ---".toList ++ ['\n']) ++
          pageSubAux (some '-') rest
      | none => c :: pageSubAux (some c) cs
    else c :: pageSubAux (some c) cs
termination_by l => l.length
decreasing_by
  · exact pageMarkAt_length h
  · simp
  · simp

def pageSub (l : List Char) : List Char := pageSubAux none l

def split_into_sections (l : List Char) : List Char :=
  pageSub (decimalSub (sectionSub l))

/-! ### `text_cleaner.fix_punctuation` -/

/-- Attempt of `:\s*\n` at the head of `l`.  Because `\s*` is greedy and
backtracks to let the final `\n` match, the match runs from the colon
through the last newline of the following whitespace run.  Returns the
remainder after the match. -/
def colonMatchAt (l : List Char) : Option (List Char) :=
  match l with
  | ':' :: r =>
    let w := r.takeWhile wsChar
    match lastIdxOfChar '\n' w with
    | some k => some (r.drop (k + 1))
    | none => none
  | _ => none

theorem colonMatchAt_length {l rest} (h : colonMatchAt l = some rest) :
    rest.length < l.length := by
  unfold colonMatchAt at h
  cases l with
  | nil => exact absurd h (by simp)
  | cons c r =>
    by_cases hc : c = ':'
    · subst hc
      simp only at h
      cases hk : lastIdxOfChar '\n' (r.takeWhile wsChar) with
      | none => rw [hk] at h; exact absurd h (by simp)
      | some k =>
        rw [hk] at h
        injection h with h2
        subst h2
        simp only [List.length_drop, List.length_cons]
        omega
    · cases c <;> simp_all

/-- Python `re.sub(r':\s*\n', '.\n', ·)`. -/
def colonSub : List Char → List Char
  | [] => []
  | c :: cs =>
    match h : colonMatchAt (c :: cs) with
    | some rest => '.' :: '\n' :: colonSub rest
    | none => c :: colonSub cs
termination_by l => l.length
decreasing_by
  · exact colonMatchAt_length h
  · simp

def fix_punctuation (l : List Char) : List Char := colonSub l

/-! ### `text_cleaner.clean_ocr_text` -/

def clean_ocr_text (raw : List Char) : List Char :=
  if raw.isEmpty then raw
  else
    stripWs (fix_punctuation (split_into_sections (normalize_whitespace
      (fix_ocr_artifacts raw))))

/-! ### `text_cleaner.chunk_ocr_text` -/

structure Chunk where
  label : List Char
  text : List Char
deriving DecidableEq, Repr

/-- Python `re.search(r'\n(S\d+)\.', ·)`: is there a newline followed by `S`,
one or more digits and a period? -/
def hasSectionSearch : List Char → Bool
  | [] => false
  | c :: cs =>
    (c == '\n' &&
      (match cs with
       | c2 :: r =>
         c2 == 'S' && !(takeDigits r).isEmpty &&
           (r.drop (takeDigits r).length).head? == some '.'
       | [] => false)) ||
    hasSectionSearch cs

/-- Does a split boundary of `re.split(r'\n\n(?=S\d+\.)', ·)` begin at the
head of `l`? -/
def secBoundary (l : List Char) : Bool :=
  match l with
  | '\n' :: '\n' :: 'S' :: r =>
    !(takeDigits r).isEmpty && (r.drop (takeDigits r).length).head? == some '.'
  | _ => false

/-- Python `re.split(r'\n\n(?=S\d+\.)', ·)`: segments; the two newlines are
consumed, the lookahead is not. -/
def splitSecAux (l : List Char) : List Char × List (List Char) :=
  if secBoundary l then
    match splitSecAux (l.drop 2) with
    | (seg, segs) => ([], seg :: segs)
  else
    match l with
    | [] => ([], [])
    | c :: cs =>
      match splitSecAux cs with
      | (seg, segs) => (c :: seg, segs)
termination_by l.length
decreasing_by
  · have : secBoundary l = true := by assumption
    unfold secBoundary at this
    split at this
    · simp only [List.length_drop, List.length_cons]
      omega
    · exact absurd this (by simp)
  · simp

def splitSections (l : List Char) : List (List Char) :=
  match splitSecAux l with
  | (seg, segs) => seg :: segs

/-- Python `re.match(r'^(S\d+)\.', part)`: leading section label of a stripped
segment, with digits. -/
def secLabelOf (part : List Char) : Option (List Char × List Char) :=
  match part with
  | c :: r =>
    if c == 'S' && !(takeDigits r).isEmpty &&
        (r.drop (takeDigits r).length).head? == some '.' then
      some ('S' :: takeDigits r, (r.drop (takeDigits r).length).drop 1)
    else none
  | [] => none

/-- Strategy 1 of `chunk_ocr_text` (store.py text_cleaner.py lines
133-151): split at standardized section markers; a segment starting with
`S<n>.` becomes a chunk labelled `S<n>`, any other non-empty segment an
`Intro` chunk. -/
def sectionChunks (cleaned : List Char) : List Chunk :=
  (splitSections cleaned).filterMap (fun part0 =>
    let part := stripWs part0
    if part.isEmpty then none
    else
      match secLabelOf part with
      | some (label, content) => some ⟨label, stripWs content⟩
      | none => some ⟨"Intro".toList, part⟩)

/-- Python `re.split(r'--- Page (\d+) ---', ·)` with its capturing group:
the text before the first marker plus, for each marker, its digits and
the following segment. -/
def pageSplitAux (l : List Char) : List Char × List (List Char × List Char) :=
  match h : pageMarkAt l with
  | some (ds, rest) =>
    match pageSplitAux rest with
    | (seg, pairs) => ([], (ds, seg) :: pairs)
  | none =>
    match l with
    | [] => ([], [])
    | c :: cs =>
      match pageSplitAux cs with
      | (seg, pairs) => (c :: seg, pairs)
termination_by l.length
decreasing_by
  · exact pageMarkAt_length h
  · simp

/-- Strategy 2 of `chunk_ocr_text` (lines 155-175): prologue becomes an
`Intro` chunk if non-empty; each `(page number, segment)` pair a
`Page <n>` chunk if the stripped segment is non-empty. -/
def pageChunks (cleaned : List Char) : List Chunk :=
  match pageSplitAux cleaned with
  | (pro, pairs) =>
    (if (stripWs pro).isEmpty then [] else [⟨"Intro".toList, stripWs pro⟩]) ++
      pairs.filterMap (fun p =>
        if (stripWs p.2).isEmpty then none
        else some (⟨"Page ".toList ++ p.1, stripWs p.2⟩ : Chunk))

/-- Decimal digits of a natural number (for the `Part <n>` labels). -/
def natDigits (n : Nat) : List Char :=
  if n < 10 then [Char.ofNat (48 + n)]
  else natDigits (n / 10) ++ [Char.ofNat (48 + n % 10)]
termination_by n
decreasing_by
  have : 10 ≤ n := by omega
  omega

/-- One adjusted cut point of the sliding-window fallback: `end0` pulled
back to just after the last `". "` or newline in the trailing 200
characters, when `end0` has not reached the end of the text
(lines 183-192, with `chunk_size = 1000`, `overlap = 200`). -/
def lookbackOf (cleaned : List Char) (start : Nat) : List Char :=
  (cleaned.drop (min (start + 1000) cleaned.length - 200)).take 200

def slideCut (cleaned : List Char) (start : Nat) : Nat :=
  if min (start + 1000) cleaned.length < cleaned.length then
    match lastIdxOfSub ['.', ' '] (lookbackOf cleaned start),
          lastIdxOfChar '\n' (lookbackOf cleaned start) with
    | some a, some b => (min (start + 1000) cleaned.length - 200) + max a b + 1
    | some a, none => (min (start + 1000) cleaned.length - 200) + a + 1
    | none, some b => (min (start + 1000) cleaned.length - 200) + b + 1
    | none, none => min (start + 1000) cleaned.length
  else min (start + 1000) cleaned.length

theorem slideCut_gt (cleaned : List Char) (start : Nat)
    (h : start < cleaned.length) : start < slideCut cleaned start := by
  unfold slideCut
  split
  next hlt =>
    split
    · omega
    · omega
    · omega
    · omega
  next hlt => omega

/-- Strategy 3 of `chunk_ocr_text` (lines 179-203): sliding window with
sentence-break adjustment; non-empty stripped windows become `Part <n>`
chunks. -/
def slidingChunks (cleaned : List Char) (start idx : Nat) : List Chunk :=
  if h : start < cleaned.length then
    let e := slideCut cleaned start
    let chunkText := stripWs ((cleaned.drop start).take (e - start))
    if chunkText.isEmpty then slidingChunks cleaned e idx
    else ⟨"Part ".toList ++ natDigits idx, chunkText⟩ :: slidingChunks cleaned e (idx + 1)
  else []
termination_by cleaned.length - start
decreasing_by
  · have := slideCut_gt cleaned start h
    omega
  · have := slideCut_gt cleaned start h
    omega

/-- Lines 205-206: the `Full Text` fallback, fired only when everything
else produced nothing and the cleaned text is non-empty. -/
def fullTextFallback (cleaned : List Char) (acc : List Chunk) : List Chunk :=
  if acc.isEmpty && !cleaned.isEmpty then [⟨"Full Text".toList, cleaned⟩] else acc

/-- Strategy 3 plus the fallback, entered with the chunks accumulated by
the earlier strategies. -/
def chunkStage3 (cleaned : List Char) (acc : List Chunk) : List Chunk :=
  fullTextFallback cleaned (acc ++ slidingChunks cleaned 0 1)

/-- Strategy 2 (entered when strategy 1 did not return): page chunks are
appended to the accumulated list, which is returned as soon as it is
non-empty; otherwise control falls through to strategy 3. -/
def chunkStage2 (cleaned : List Char) (acc : List Chunk) : List Chunk :=
  if hasSub "--- Page".toList cleaned then
    if !(acc ++ pageChunks cleaned).isEmpty then acc ++ pageChunks cleaned
    else chunkStage3 cleaned (acc ++ pageChunks cleaned)
  else chunkStage3 cleaned acc

/-- Embeds `chunk_ocr_text` (lines 113-208).  The chunk list accumulates across
the strategies exactly as the Python list does: strategy 1 returns early
only with more than one chunk, and its leftover (at most one chunk) is
carried into the later stages. -/
def chunk_ocr_text (text : List Char) : List Chunk :=
  if text.isEmpty then []
  else
    let cleaned := clean_ocr_text text
    let chunks1 := if hasSectionSearch cleaned then sectionChunks cleaned else []
    if 1 < chunks1.length then chunks1
    else chunkStage2 cleaned chunks1

/-! ### rapidfuzz scores

`fuzz.ratio(a, b)` is the normalized InDel similarity
`100 * (1 - dist/(|a|+|b|)) = 200 * lcs(a,b) / (|a|+|b|)` (with 100 for
two empty strings).  The scores are carried as exact
numerator/denominator pairs of naturals and compared by
cross-multiplication, which agrees with the comparisons Python performs
on the float values at the thresholds the code uses. -/

/-- Length of a longest common subsequence. -/
def lcs : List Char → List Char → Nat
  | [], _ => 0
  | _ :: _, [] => 0
  | a :: as, b :: bs =>
    if a == b then lcs as bs + 1
    else max (lcs as (b :: bs)) (lcs (a :: as) bs)
termination_by a b => a.length + b.length
decreasing_by
  · simp only [List.length_cons]; omega
  · simp only [List.length_cons]; omega
  · simp only [List.length_cons]; omega

/-- Numerator of `fuzz.ratio(a, b)`. -/
def ratioNum (a b : List Char) : Nat :=
  if a.isEmpty && b.isEmpty then 100 else 200 * lcs a b

/-- Positive denominator of `fuzz.ratio(a, b)`. -/
def ratioDen (a b : List Char) : Nat :=
  if a.isEmpty && b.isEmpty then 1 else a.length + b.length

/-- rapidfuzz `fuzz.ratio(a, b) > t` for a natural threshold `t`. -/
def ratioGt (a b : List Char) (t : Nat) : Bool :=
  t * ratioDen a b < ratioNum a b

/-- rapidfuzz `process.extractOne(req, labels, scorer=fuzz.ratio)`: best label and
its score as a `ratioNum`/`ratioDen` pair; on ties the first candidate
wins, `none` when the choice list is empty. -/
def extractOneR (req : List Char) (labels : List (List Char)) :
    Option (List Char × Nat × Nat) :=
  labels.foldl
    (fun best lbl =>
      match best with
      | none => some (lbl, ratioNum req lbl, ratioDen req lbl)
      | some (bl, bn, bd) =>
        if bn * ratioDen req lbl < ratioNum req lbl * bd then
          some (lbl, ratioNum req lbl, ratioDen req lbl)
        else some (bl, bn, bd))
    none

/-- All contiguous substrings of `l`. -/
def allSubstrings (l : List Char) : List (List Char) :=
  l.tails.flatMap List.inits

/-- The largest of the `fuzz.ratio` scores of `sh` against the candidate
substrings, as a pair (first maximum wins). -/
def bestRatioOver (sh : List Char) (cands : List (List Char)) : Nat × Nat :=
  cands.foldl
    (fun best s =>
      if best.1 * ratioDen sh s < ratioNum sh s * best.2 then
        (ratioNum sh s, ratioDen sh s)
      else best)
    (0, 1)

/-- rapidfuzz `fuzz.partial_ratio(a, b)`: the best `fuzz.ratio` alignment of the
shorter string against a substring of the longer one, as a score pair. -/
def bestAlignRatio (a b : List Char) : Nat × Nat :=
  if a.length ≤ b.length then bestRatioOver a (allSubstrings b)
  else
    (allSubstrings a).foldl
      (fun best s =>
        if best.1 * ratioDen s b < ratioNum s b * best.2 then
          (ratioNum s b, ratioDen s b)
        else best)
      (0, 1)

/-! ### Query parsing (`store.py` lines 163-165, 221-225)

`re.findall(r'[sz]?\s*(\d+)', query_lower)` and
`re.findall(r's(\d+)', query_lower)`. -/

/-- Attempt of `[sz]?\s*(\d+)` without the optional prefix: skip
whitespace, then read one or more digits. -/
def digitsAfterWs (m : List Char) : Option (List Char × List Char) :=
  if (takeDigits (m.dropWhile wsChar)).isEmpty then none
  else
    some (takeDigits (m.dropWhile wsChar),
      (m.dropWhile wsChar).drop (takeDigits (m.dropWhile wsChar)).length)

/-- Attempt of `[sz]?\s*(\d+)` at the head of `l`: the optional `s`/`z`
prefix is tried greedily, falling back to the prefixless attempt. -/
def permMatchAt (l : List Char) : Option (List Char × List Char) :=
  match l with
  | c :: cs =>
    if c == 's' || c == 'z' then
      match digitsAfterWs cs with
      | some r => some r
      | none => digitsAfterWs l
    else digitsAfterWs l
  | [] => none

theorem digitsAfterWs_length {m ds rest} (h : digitsAfterWs m = some (ds, rest)) :
    rest.length < m.length ∧ ds = takeDigits (m.dropWhile wsChar) := by
  unfold digitsAfterWs at h
  split at h
  · exact absurd h (by simp)
  next he =>
    simp only [Option.some.injEq, Prod.mk.injEq] at h
    obtain ⟨rfl, rfl⟩ := h
    refine ⟨?_, rfl⟩
    have h1 : (m.dropWhile wsChar).length ≤ m.length := dropWhileLen wsChar m
    have h5 : 0 < (takeDigits (m.dropWhile wsChar)).length := by
      cases hq : takeDigits (m.dropWhile wsChar) with
      | nil => rw [hq] at he; simp at he
      | cons _ _ => simp
    have h2 : ((m.dropWhile wsChar).drop (takeDigits (m.dropWhile wsChar)).length).length =
        (m.dropWhile wsChar).length - (takeDigits (m.dropWhile wsChar)).length := by simp
    have h3 : (takeDigits (m.dropWhile wsChar)).length ≤ (m.dropWhile wsChar).length := by
      simpa [takeDigits] using takeWhileLen digitChar (m.dropWhile wsChar)
    omega

theorem permMatchAt_length {l ds rest} (h : permMatchAt l = some (ds, rest)) :
    rest.length < l.length := by
  unfold permMatchAt at h
  cases l with
  | nil => exact absurd h (by simp)
  | cons c cs =>
    simp only at h
    split at h
    · cases hd : digitsAfterWs cs with
      | some r =>
        rw [hd] at h
        simp only [Option.some.injEq] at h
        obtain ⟨rfl⟩ : r = (ds, rest) := by simp [h]
        have := (digitsAfterWs_length hd).1
        simp only [List.length_cons]
        omega
      | none =>
        rw [hd] at h
        exact (digitsAfterWs_length h).1
    · exact (digitsAfterWs_length h).1

/-- Python `re.findall(r'[sz]?\s*(\d+)', ·)`: captured digit groups of all
leftmost, non-overlapping matches. -/
def findallPerm (l : List Char) : List (List Char) :=
  match l with
  | [] => []
  | c :: cs =>
    match h : permMatchAt (c :: cs) with
    | some (ds, rest) => ds :: findallPerm rest
    | none => findallPerm cs
termination_by l.length
decreasing_by
  · exact permMatchAt_length h
  · simp

/-- Python `re.findall(r's(\d+)', ·)`: captured digit groups of all leftmost,
non-overlapping matches. -/
def findallStrict (l : List Char) : List (List Char) :=
  match l with
  | [] => []
  | c :: cs =>
    if c == 's' && (cs.head?.elim false digitChar) then
      (cs.takeWhile digitChar) :: findallStrict (cs.dropWhile digitChar)
    else findallStrict cs
termination_by l.length
decreasing_by
  · have := dropWhileLen digitChar cs
    simp only [List.length_cons]
    omega
  · simp

/-- The maximal digit runs of a string, in order. -/
def digitRuns (l : List Char) : List (List Char) :=
  match l with
  | [] => []
  | c :: cs =>
    if digitChar c then (c :: cs.takeWhile digitChar) :: digitRuns (cs.dropWhile digitChar)
    else digitRuns cs
termination_by l.length
decreasing_by
  · have := dropWhileLen digitChar cs
    simp only [List.length_cons]
    omega
  · simp

unseal digitRuns

/-- Requested labels of the ranker (`store.py` 164-165 and 298-299):
`S<digits>` for each permissive-pattern match. -/
def permSectionLabels (ql : List Char) : List (List Char) :=
  (findallPerm ql).map (fun ds => 'S' :: ds)

/-- Requested labels of the snippet extractor (`store.py` 221-225):
`S<digits>` for each strict-pattern match. -/
def strictSectionLabels (ql : List Char) : List (List Char) :=
  (findallStrict ql).map (fun ds => 'S' :: ds)

/-! ### The document store (`store.py`) -/

structure Doc where
  id : List Char
  filename : List Char
  extracted_text : List Char
  chunks : List Chunk
deriving DecidableEq, Repr

/-- The dictionaries appended to `scored_docs` in `search`
(`store.py` 200-207); `created_at` is carried along by the code but
never read afterwards and is omitted. -/
structure ScoredDoc where
  id : List Char
  filename : List Char
  score : Nat
  text : List Char
  chunks : List Chunk
deriving DecidableEq, Repr

/-- The score of one document (`store.py` 171-197). -/
def scoreDoc (query_lower : List Char) (query_words : List (List Char))
    (requested_labels : List (List Char)) (d : Doc) : Nat :=
  (if hasSub query_lower (lowerStr d.extracted_text) then 100 else 0) +
  (query_words.map (fun w =>
      if hasSub w (lowerStr d.extracted_text) then 40
      else if 85 * (bestAlignRatio w (lowerStr d.extracted_text)).2 <
          (bestAlignRatio w (lowerStr d.extracted_text)).1 then 30
      else 0)).sum +
  (if !(d.chunks.map (·.label)).isEmpty && !requested_labels.isEmpty then
    (requested_labels.map (fun req =>
      match extractOneR req (d.chunks.map (·.label)) with
      | some (_, sn, sd) => if 85 * sd < sn then 150 else 0
      | none => 0)).sum
  else 0)

/-- Stable descending insertion (equal scores keep the earlier element
first), the behavior of Python's stable `list.sort(key=..., reverse=True)`
in `store.py` line 209. -/
def insertDesc (x : ScoredDoc) : List ScoredDoc → List ScoredDoc
  | [] => [x]
  | y :: ys => if y.score ≤ x.score then x :: y :: ys else y :: insertDesc x ys

def sortDesc : List ScoredDoc → List ScoredDoc
  | [] => []
  | x :: xs => insertDesc x (sortDesc xs)

/-- Embeds `KnowledgeStore.search` (`store.py` 153-210). -/
def search (docs : List Doc) (query : List Char) (top_k : Nat) : List ScoredDoc :=
  (sortDesc (docs.filterMap (fun d =>
    if 0 < scoreDoc (lowerStr query)
        ((splitWsList (lowerStr query)).filter (fun w => 3 < w.length))
        (permSectionLabels (lowerStr query)) d then
      some ⟨d.id, d.filename, scoreDoc (lowerStr query)
        ((splitWsList (lowerStr query)).filter (fun w => 3 < w.length))
        (permSectionLabels (lowerStr query)) d, d.extracted_text, d.chunks⟩
    else none))).take top_k

/-! ### `KnowledgeStore.extract_relevant_snippet` (`store.py` 212-282) -/

/-- First-occurrence-ordered deduplication (the `seen` set of line 231,
and the key order of the dict comprehensions of lines 228 and 312). -/
def dedupFirst (ls : List (List Char)) : List (List Char) :=
  ls.foldl (fun acc l => if acc.contains l then acc else acc ++ [l]) []

/-- Lookup in the label-to-text dict built by
`{c["label"]: c["text"] for c in chunks}`: on duplicate labels the last
chunk's text wins. -/
def chunkMapGet (chunks : List Chunk) (lbl : List Char) : Option (List Char) :=
  (chunks.reverse.find? (fun c => c.label == lbl)).map (·.text)

/-- Python `int(600 + match_quality * 900)` (line 273) for a match quality
given as a score pair over 100: `int(600 + (n/(100 d)) * 900)
= 600 + (9 n) / d` (integer division; the value is non-negative, so
Python's truncation is the floor). -/
def dynWindow (n d : Nat) : Nat := 600 + 9 * n / d

/-- Lines 276-282: centered window of size `dynWindow n d` around `idx`,
stripped, with ellipses when it does not reach the text boundary. -/
def snippetWindow (text : List Char) (idx : Nat) (n d : Nat) : List Char :=
  (if 0 < idx - dynWindow n d / 2 then "...".toList else []) ++
  stripWs ((text.drop (idx - dynWindow n d / 2)).take
      (min text.length (idx + dynWindow n d / 2) - (idx - dynWindow n d / 2))) ++
  (if min text.length (idx + dynWindow n d / 2) < text.length then "...".toList else [])

/-- The fuzzy sliding scan of lines 250-266: over windows of
`window_size` consecutive words, the best whole-window `fuzz.ratio`
against the query as a score pair (first window wins ties) together with
`text_lower.find(window_text)` for that window (`none` for Python's
`-1`). -/
def bestFuzzyWindow (query_lower text_lower : List Char) : (Nat × Nat) × Option Nat :=
  (List.range ((splitWsList text_lower).length -
      ((splitWsList query_lower).length + 2))).foldl
    (fun best i =>
      if best.1.1 *
            ratioDen query_lower
              (List.intercalate [' ']
                (((splitWsList text_lower).drop i).take
                  ((splitWsList query_lower).length + 2))) <
          ratioNum query_lower
              (List.intercalate [' ']
                (((splitWsList text_lower).drop i).take
                  ((splitWsList query_lower).length + 2))) * best.1.2 then
        ((ratioNum query_lower
            (List.intercalate [' ']
              (((splitWsList text_lower).drop i).take ((splitWsList query_lower).length + 2))),
          ratioDen query_lower
            (List.intercalate [' ']
              (((splitWsList text_lower).drop i).take ((splitWsList query_lower).length + 2)))),
          findIdxSub
            (List.intercalate [' ']
              (((splitWsList text_lower).drop i).take ((splitWsList query_lower).length + 2)))
            text_lower)
      else best)
    ((0, 1), some 0)

/-- Embeds `KnowledgeStore.extract_relevant_snippet` (`store.py` 212-282).  The
`window = 1200` parameter of the Python signature is never read by the
body and is omitted.  An exact substring hit has quality 1.0, i.e. the
score pair (100, 1); a fuzzy hit of score n/d has quality n/(100 d). -/
def extract_relevant_snippet (doc : ScoredDoc) (query : List Char) : List Char :=
  if !(findallStrict (lowerStr query)).isEmpty then
    List.intercalate ['\n', '\n']
      ((dedupFirst (strictSectionLabels (lowerStr query))).map (fun label =>
        match chunkMapGet doc.chunks label with
        | some t => '[' :: label ++ "]: ".toList ++ t
        | none => '[' :: label ++ "]: NOT FOUND in this document.".toList))
  else
    match findIdxSub (lowerStr query) (lowerStr doc.text) with
    | some i => snippetWindow doc.text i 100 1
    | none =>
      if 70 * (bestFuzzyWindow (lowerStr query) (lowerStr doc.text)).1.2 <
          (bestFuzzyWindow (lowerStr query) (lowerStr doc.text)).1.1 then
        match (bestFuzzyWindow (lowerStr query) (lowerStr doc.text)).2 with
        | some i =>
          snippetWindow doc.text i
            (bestFuzzyWindow (lowerStr query) (lowerStr doc.text)).1.1
            (bestFuzzyWindow (lowerStr query) (lowerStr doc.text)).1.2
        | none => doc.text.take 600
      else doc.text.take 600

/-! ### `KnowledgeStore.get_context_for_query` (`store.py` 284-333) -/

/-- Lines 315-321 applied to one ranked document: the best fuzzy match
of `req` against the document's (first-occurrence deduplicated) chunk
labels, yielding `(chunk text, source filename, matched label)` when the
score exceeds 85. -/
def tryDocForLabel (req : List Char) (r : ScoredDoc) :
    Option (List Char × List Char × List Char) :=
  match extractOneR req (dedupFirst (r.chunks.map (·.label))) with
  | some (lbl, sn, sd) =>
    if 85 * sd < sn then some ((chunkMapGet r.chunks lbl).getD [], r.filename, lbl)
    else none
  | none => none

/-- The `found_data` dict of lines 309-321, built as an association list
in insertion order. -/
def buildFound (results : List ScoredDoc) (reqs : List (List Char)) :
    List (List Char × (List Char × List Char × List Char)) :=
  results.foldl
    (fun acc r =>
      reqs.foldl
        (fun a req =>
          if (a.lookup req).isSome then a
          else
            match tryDocForLabel req r with
            | some e => a ++ [(req, e)]
            | none => a)
        acc)
    []

/-- One line of the unified report (lines 324-331). -/
def reportLine (found : List (List Char × (List Char × List Char × List Char)))
    (req : List Char) : List Char :=
  match found.lookup req with
  | some (t, src, lbl) =>
    '[' :: lbl ++ "] (Source: ".toList ++ src ++ "): ".toList ++ t
  | none => '[' :: req ++ "]: NOT FOUND in any document.".toList

/-- Embeds `KnowledgeStore.get_context_for_query` (`store.py` 284-333).  The
`max_chars` parameter is accepted but never read by the body. -/
def get_context_for_query (docs : List Doc) (query : List Char) (max_chars : Nat) :
    List Char :=
  if (search docs query 3).isEmpty then []
  else
    if (permSectionLabels (lowerStr query)).isEmpty then
      List.intercalate "\n\n---\n\n".toList
        ((search docs query 3).map (fun r =>
          "[From: ".toList ++ r.filename ++ "]\n".toList ++
            extract_relevant_snippet r query))
    else
      List.intercalate ['\n', '\n']
        ((permSectionLabels (lowerStr query)).map
          (reportLine (buildFound (search docs query 3) (permSectionLabels (lowerStr query)))))

/-! ### `KnowledgeStore.delete_document` (`store.py` 140-151) and the
spec-level duplicate lookup -/

/-- Embeds `delete_document`: the retained list (the in-memory collection after
the call) and the returned boolean. -/
def delete_document (docs : List Doc) (doc_id : List Char) : List Doc × Bool :=
  ((docs.filter (fun d => d.id != doc_id)),
    (docs.filter (fun d => d.id != doc_id)).length < docs.length)

/-- A stored document as the spec's data model describes it for duplicate
detection (spec section 3: `content_hash: optional string`). -/
structure SpecStoredDoc where
  id : List Char
  filename : List Char
  content_hash : Option (List Char)
deriving DecidableEq, Repr

/-- Modelled from the spec: `KnowledgeStore` defines no
`find_by_content_hash` / `find_by_checksum` method although
`main.py` lines 142 and 227 call `knowledge_store.find_by_checksum` on
the upload paths; spec section 6 specifies
`find_by_content_hash(hash) -> Document | none`, modelled here as the
first stored document carrying the given content hash. -/
def find_by_content_hash (docs : List SpecStoredDoc) (h : List Char) :
    Option SpecStoredDoc :=
  docs.find? (fun d => d.content_hash == some h)

/-! ### Concrete instances used by the claim theorems -/

/-- The `ScoredDoc` produced by `search` for a document matched only by
the verbatim occurrence of the empty query (score exactly 100). -/
def emptyScored (d : Doc) : ScoredDoc :=
  ⟨d.id, d.filename, 100, d.extracted_text, d.chunks⟩

/-- The first ranked document on which `tryDocForLabel` succeeds — the
specification-side reading of the per-label report of
`get_context_for_query`. -/
def firstDocMatch (results : List ScoredDoc) (req : List Char) :
    Option (List Char × List Char × List Char) :=
  results.findSome? (tryDocForLabel req)

def demoDocA : Doc := ⟨"a1".toList, "fa".toList, "alpha".toList, []⟩
def demoDocB : Doc := ⟨"b2".toList, "fb".toList, "beta".toList, []⟩

/-- A document whose chunk `S1` holds 300 characters. -/
def c1Doc : Doc :=
  ⟨"d1".toList, "f".toList, List.replicate 300 'x',
   [⟨"S1".toList, List.replicate 300 'x'⟩]⟩

/-- A document with two section chunks, as in spec scenarios A and B. -/
def c3Doc : Doc :=
  ⟨"d1".toList, "f.pdf".toList, "Scope is limited. Deadline is Friday.".toList,
   [⟨"S1".toList, "Scope is limited.".toList⟩,
    ⟨"S2".toList, "Deadline is Friday.".toList⟩]⟩

/-- The document text of spec scenario C. -/
def c4Input : List Char :=
  "Page 1 --- Page 1 --- Contract terms. --- Page 2 --- Payment due.".toList

/-- A stored document carrying a content hash (spec data model). -/
def c9Doc : SpecStoredDoc := ⟨"d1".toList, "f".toList, some "abc".toList⟩

unseal replaceAll splitWsList collapseHWS wsBeforePunct collapseNL sectionSubAux
  decimalSubAux pageSubAux colonSub splitSecAux pageSplitAux natDigits
  slidingChunks lcs findallPerm findallStrict

/-! ### Helper lemmas -/

theorem dropWhile_head_false {p : Char → Bool} {l : List Char} {c : Char} {cs : List Char}
    (h : l.dropWhile p = c :: cs) : p c = false := by
  induction l with
  | nil => simp at h
  | cons a as ih =>
    by_cases hp : p a
    · rw [List.dropWhile_cons_of_pos hp] at h
      exact ih h
    · rw [List.dropWhile_cons_of_neg hp] at h
      cases h
      simpa using hp

theorem dropWhile_idem (p : Char → Bool) (l : List Char) :
    (l.dropWhile p).dropWhile p = l.dropWhile p := by
  cases h : l.dropWhile p with
  | nil => simp
  | cons c cs =>
    rw [List.dropWhile_cons_of_neg]
    simp [dropWhile_head_false h]

theorem drop_takeWhile_length (p : Char → Bool) (l : List Char) :
    l.drop (l.takeWhile p).length = l.dropWhile p := by
  induction l with
  | nil => simp
  | cons c cs ih =>
    by_cases hp : p c
    · rw [List.takeWhile_cons_of_pos hp, List.dropWhile_cons_of_pos hp]
      simpa using ih
    · rw [List.takeWhile_cons_of_neg hp, List.dropWhile_cons_of_neg hp]
      simp

theorem dropWhile_getLast?_of_ne_nil {p : Char → Bool} (x : List Char)
    (h : x.dropWhile p ≠ []) : (x.dropWhile p).getLast? = x.getLast? := by
  induction x with
  | nil => simp at h
  | cons c cs ih =>
    by_cases hp : p c
    · rw [List.dropWhile_cons_of_pos hp] at h ⊢
      cases hcs : cs with
      | nil =>
        rw [hcs] at h
        simp at h
      | cons b bs =>
        rw [← hcs, ih h, hcs]
        simp
    · rw [List.dropWhile_cons_of_neg hp]

theorem stripWs_idem (l : List Char) : stripWs (stripWs l) = stripWs l := by
  have hL : (stripWs l).dropWhile wsChar = stripWs l := by
    cases hs : stripWs l with
    | nil => simp
    | cons c cs =>
      have hne : (l.dropWhile wsChar).reverse.dropWhile wsChar ≠ [] := by
        intro h0
        rw [stripWs, h0] at hs
        simp at hs
      have hane : (l.dropWhile wsChar) ≠ [] := by
        intro h0
        apply hne
        rw [h0]
        simp
      have h2 : ((l.dropWhile wsChar).reverse.dropWhile wsChar).getLast? =
          ((l.dropWhile wsChar).reverse).getLast? :=
        dropWhile_getLast?_of_ne_nil _ hne
      have h3 : some c = ((l.dropWhile wsChar).reverse.dropWhile wsChar).getLast? := by
        rw [← List.head?_reverse]
        rw [stripWs] at hs
        rw [hs]
        rfl
      have h4 : ((l.dropWhile wsChar).reverse).getLast? = (l.dropWhile wsChar).head? :=
        List.getLast?_reverse _
      cases ha : l.dropWhile wsChar with
      | nil => exact absurd ha hane
      | cons a as =>
        have h5 : c = a := by
          have := h3.trans (h2.trans h4)
          rw [ha] at this
          simpa using this
        rw [List.dropWhile_cons_of_neg]
        rw [h5]
        simpa using dropWhile_head_false ha
  have hR : (stripWs l).reverse.dropWhile wsChar = (stripWs l).reverse := by
    rw [stripWs, List.reverse_reverse]
    exact dropWhile_idem wsChar _
  show (((stripWs l).dropWhile wsChar).reverse.dropWhile wsChar).reverse = stripWs l
  rw [hL, hR, List.reverse_reverse]

theorem clean_nil : clean_ocr_text [] = [] := rfl

theorem stripWs_clean (t : List Char) :
    stripWs (clean_ocr_text t) = clean_ocr_text t := by
  unfold clean_ocr_text
  split
  next h =>
    have : t = [] := by simpa using h
    subst this
    rfl
  next h => exact stripWs_idem _

/-! ### C10 -/

/-- C10: `delete_document` removes exactly the documents whose id equals
the given id (keeping every other document, in the original order),
returns `true` iff something was removed, and leaves the collection
unchanged when it returns `false`. -/
theorem c10_delete_document_frame (docs : List Doc) (doc_id : List Char) :
    (delete_document docs doc_id).1.Sublist docs ∧
    (∀ d : Doc, d ∈ (delete_document docs doc_id).1 ↔ d ∈ docs ∧ d.id ≠ doc_id) ∧
    ((delete_document docs doc_id).2 = true ↔ ∃ d ∈ docs, d.id = doc_id) ∧
    ((delete_document docs doc_id).2 = false → (delete_document docs doc_id).1 = docs) := by
  refine ⟨List.filter_sublist docs, ?_, ?_, ?_⟩
  · intro d
    simp [delete_document, List.mem_filter, bne_iff_ne]
  · constructor
    · intro h
      by_contra hex
      push_neg at hex
      have hall : ∀ d ∈ docs, (fun d : Doc => d.id != doc_id) d = true := by
        intro d hd
        simpa [bne_iff_ne] using hex d hd
      have heq : docs.filter (fun d => d.id != doc_id) = docs := List.filter_eq_self.mpr hall
      simp only [delete_document, heq, decide_eq_true_eq] at h
      omega
    · intro ⟨d, hd, hid⟩
      simp only [delete_document, decide_eq_true_eq]
      have hlen : (docs.filter (fun d => d.id != doc_id)).length ≤ docs.length :=
        List.length_filter_le _ _
      rcases Nat.lt_or_ge (docs.filter (fun d => d.id != doc_id)).length docs.length with h | h
      · exact h
      · exfalso
        have heq : (docs.filter (fun d => d.id != doc_id)).length = docs.length := by omega
        have hfe : docs.filter (fun d => d.id != doc_id) = docs :=
          (List.filter_sublist docs).eq_of_length heq
        rw [← hfe] at hd
        rw [List.mem_filter] at hd
        simp [bne_iff_ne, hid] at hd
  · intro h
    have h' : ¬ ((docs.filter (fun d => d.id != doc_id)).length < docs.length) := by
      simpa [delete_document] using h
    have h2 : (docs.filter (fun d => d.id != doc_id)).length = docs.length := by
      have := List.length_filter_le (fun d : Doc => d.id != doc_id) docs
      omega
    exact (List.filter_sublist docs).eq_of_length h2

/-- C10 witness: deleting `a1` from a two-document store reports
success. -/
theorem c10_witness : (delete_document [demoDocA, demoDocB] "a1".toList).2 = true :=
  (c10_delete_document_frame [demoDocA, demoDocB] "a1".toList).2.2.1.mpr
    ⟨demoDocA, by simp, rfl⟩

/-! ### C9 -/

/-- C9: the spec-modelled `find_by_content_hash` returns the stored
document with the given content hash, or `none` exactly when no stored
document carries it (and, being a total function, never raises). -/
theorem c9_find_by_content_hash_spec (docs : List SpecStoredDoc) (h : List Char) :
    (∀ d, find_by_content_hash docs h = some d →
      d ∈ docs ∧ d.content_hash = some h) ∧
    (find_by_content_hash docs h = none →
      ∀ d ∈ docs, d.content_hash ≠ some h) := by
  constructor
  · intro d hd
    refine ⟨List.mem_of_find?_eq_some hd, ?_⟩
    have := List.find?_some hd
    simpa using this
  · intro hn d hd
    have := List.find?_eq_none.mp hn d hd
    simpa using this

/-- C9 witness: looking up hash `abc` in a store holding a document with
that hash finds it. -/
theorem c9_witness : c9Doc ∈ [c9Doc] ∧ c9Doc.content_hash = some "abc".toList :=
  (c9_find_by_content_hash_spec [c9Doc] "abc".toList).1 c9Doc (by decide)

/-- C9 evaluation at the failing path: the store itself has no
`find_by_checksum`; the modelled spec-level lookup on an empty store
returns `none` rather than raising. -/
theorem c9_code_bug_eval : find_by_content_hash [] "abc".toList = none := rfl

/-! ### C2 -/

theorem hasSub_nil (l : List Char) : hasSub [] l = true := by
  cases l <;> simp [hasSub, leadsWith]

theorem scoreDoc_nil_query (d : Doc) : scoreDoc [] [] [] d = 100 := by
  simp [scoreDoc, hasSub_nil]

theorem insertDesc_const {n : Nat} (x : ScoredDoc) (l : List ScoredDoc)
    (hx : x.score = n) (hl : ∀ y ∈ l, y.score = n) : insertDesc x l = x :: l := by
  cases l with
  | nil => rfl
  | cons y ys =>
    have hy : y.score = n := hl y (by simp)
    simp [insertDesc, hx, hy]

theorem sortDesc_const {n : Nat} (l : List ScoredDoc)
    (hl : ∀ y ∈ l, y.score = n) : sortDesc l = l := by
  induction l with
  | nil => rfl
  | cons x xs ih =>
    have hxs : ∀ y ∈ xs, y.score = n := fun y hy => hl y (by simp [hy])
    rw [sortDesc, ih hxs]
    exact insertDesc_const x xs (hl x (by simp)) hxs

theorem mem_insertDesc {a x : ScoredDoc} {l : List ScoredDoc} :
    a ∈ insertDesc x l ↔ a = x ∨ a ∈ l := by
  induction l with
  | nil => simp [insertDesc]
  | cons y ys ih =>
    rw [insertDesc]
    split
    · simp
    · rw [List.mem_cons, ih]
      simp [or_comm, or_assoc, or_left_comm]

theorem mem_sortDesc {a : ScoredDoc} {l : List ScoredDoc} :
    a ∈ sortDesc l ↔ a ∈ l := by
  induction l with
  | nil => simp [sortDesc]
  | cons x xs ih =>
    rw [sortDesc, mem_insertDesc, ih]
    simp

/-- C2 (amended): documents scoring 0 are excluded from every search
result; however, since the empty query occurs verbatim in every document
text (Python's `"" in s` is always true), `search("")` scores every
document exactly 100 and returns the first `top_k` documents in stored
order — not the empty list. -/
theorem c2_search_zero_excluded_empty_query_matches_all
    (docs : List Doc) (query : List Char) (top_k : Nat) :
    (∀ r ∈ search docs query top_k, 0 < r.score) ∧
    search docs [] top_k = (docs.map emptyScored).take top_k := by
  constructor
  · intro r hr
    have h1 : r ∈ sortDesc (docs.filterMap (fun d =>
        if 0 < scoreDoc (lowerStr query)
            ((splitWsList (lowerStr query)).filter (fun w => 3 < w.length))
            (permSectionLabels (lowerStr query)) d then
          some ⟨d.id, d.filename, scoreDoc (lowerStr query)
            ((splitWsList (lowerStr query)).filter (fun w => 3 < w.length))
            (permSectionLabels (lowerStr query)) d, d.extracted_text, d.chunks⟩
        else none)) := List.take_subset _ _ hr
    rw [mem_sortDesc, List.mem_filterMap] at h1
    obtain ⟨d, -, hd⟩ := h1
    split at hd
    next hpos =>
      cases hd
      simpa using hpos
    next => exact absurd hd (by simp)
  · have hmap : docs.filterMap (fun d =>
        if 0 < scoreDoc (lowerStr [])
            ((splitWsList (lowerStr [])).filter (fun w => 3 < w.length))
            (permSectionLabels (lowerStr [])) d then
          some ⟨d.id, d.filename, scoreDoc (lowerStr [])
            ((splitWsList (lowerStr [])).filter (fun w => 3 < w.length))
            (permSectionLabels (lowerStr [])) d, d.extracted_text, d.chunks⟩
        else none) = docs.map emptyScored := by
      induction docs with
      | nil => rfl
      | cons d ds ih =>
        rw [List.filterMap_cons, List.map_cons]
        have hs : scoreDoc (lowerStr [])
            ((splitWsList (lowerStr [])).filter (fun w => 3 < w.length))
            (permSectionLabels (lowerStr [])) d = 100 := scoreDoc_nil_query d
        rw [hs]
        simp only [Nat.zero_lt_succ, if_pos]
        rw [ih]
        rfl
    rw [search, hmap, sortDesc_const (n := 100)]
    intro y hy
    rw [List.mem_map] at hy
    obtain ⟨d, -, rfl⟩ := hy
    rfl

/-- C2 counterexample: a one-document collection is non-empty, yet
`search("")` does not return the empty list. -/
theorem c2_counterexample : search [demoDocA] [] 5 ≠ [] := by decide

/-- C2 witness: a returned result of a concrete search has positive
score. -/
theorem c2_witness : 0 < (emptyScored demoDocA).score :=
  (c2_search_zero_excluded_empty_query_matches_all [demoDocA] [] 5).1
    (emptyScored demoDocA) (by decide)

/-! ### C6 -/

/-- C6 counterexample: the normalizer is not idempotent on `"1.2"`. -/
theorem c6_counterexample :
    clean_ocr_text (clean_ocr_text "1.2".toList) ≠ clean_ocr_text "1.2".toList := by
  decide

/-- C6 (amended): `clean_ocr_text` is not idempotent — the decimal
bracketing of `split_into_sections` rewrites an already bracketed
reference again: one application of the cleaner maps `"1.2"` to
`"[1.2]"`, and a second application maps that to `"[ [1.2]\n]"`. -/
theorem c6_not_idempotent :
    clean_ocr_text "1.2".toList = "[1.2]".toList ∧
    clean_ocr_text (clean_ocr_text "1.2".toList) = "[ [1.2]\n]".toList := by
  constructor
  · decide
  · decide

/-! ### C4 -/

/-- C4 counterexample: scenario C's text does not chunk into exactly the
two claimed page chunks. -/
theorem c4_counterexample :
    chunk_ocr_text c4Input ≠
      [⟨"Page 1".toList, "Contract terms.".toList⟩,
       ⟨"Page 2".toList, "Payment due.".toList⟩] := by
  set_option maxRecDepth 1000000 in decide

/-- C4 (amended): scenario C's text chunks into three chunks — the text
before the first page marker becomes an `Intro` chunk (as section 4.2 of
the spec itself prescribes), followed by the two page chunks. -/
theorem c4_page_chunks :
    chunk_ocr_text c4Input =
      [⟨"Intro".toList, "Page 1".toList⟩,
       ⟨"Page 1".toList, "Contract terms.".toList⟩,
       ⟨"Page 2".toList, "Payment due.".toList⟩] := by
  set_option maxRecDepth 1000000 in decide

/-! ### C8 -/

/-- C8 counterexample: the whitespace-only input `" "` is a non-empty
string, yet `chunk_ocr_text` returns no chunks for it (its cleaned text
is empty, and the `Full Text` fallback is keyed on the cleaned text). -/
theorem c8_counterexample :
    ([' '] : List Char) ≠ [] ∧ chunk_ocr_text [' '] = [] := by
  refine ⟨by simp, ?_⟩
  set_option maxRecDepth 100000 in decide

theorem chunkStage3_ne (cleaned : List Char) (acc : List Chunk)
    (h : cleaned ≠ []) : chunkStage3 cleaned acc ≠ [] := by
  unfold chunkStage3 fullTextFallback
  split
  next => simp
  next hcond =>
    intro h5
    rw [h5] at hcond
    have : cleaned.isEmpty = false := by
      cases cleaned with
      | nil => exact absurd rfl h
      | cons c cs => rfl
    simp [this] at hcond

theorem chunkStage2_ne (cleaned : List Char) (acc : List Chunk)
    (h : cleaned ≠ []) : chunkStage2 cleaned acc ≠ [] := by
  unfold chunkStage2
  split
  · split
    next hne => simpa using hne
    next => exact chunkStage3_ne _ _ h
  · exact chunkStage3_ne _ _ h

/-- C8 (amended): for every input whose cleaned text is non-empty,
`chunk_ocr_text` returns a non-empty chunk list; when all three
strategies produce nothing the single `Full Text` chunk is emitted. -/
theorem c8_nonempty_chunks (text : List Char)
    (h : clean_ocr_text text ≠ []) : chunk_ocr_text text ≠ [] := by
  have ht : text.isEmpty = false := by
    cases text with
    | nil => exact absurd clean_nil h
    | cons c cs => rfl
  unfold chunk_ocr_text
  simp only [ht, Bool.false_eq_true, if_false]
  split
  next h1 =>
    split
    next h2 =>
      intro h0
      rw [h0] at h2
      simp at h2
    next h2 => exact chunkStage2_ne _ _ h
  next h1 =>
    split
    next h2 => simp at h2
    next h2 => exact chunkStage2_ne _ _ h

/-- C8 witness: a one-character input has non-empty cleaned text and
produces chunks. -/
theorem c8_witness : chunk_ocr_text ['a'] ≠ [] :=
  c8_nonempty_chunks ['a'] (by decide)

/-! ### C5 -/

theorem slideCut_short (cleaned : List Char) (h1 : cleaned.length ≤ 1000) :
    slideCut cleaned 0 = cleaned.length := by
  unfold slideCut
  have hm : min (0 + 1000) cleaned.length = cleaned.length := by omega
  rw [hm]
  simp

theorem slidingChunks_done (cleaned : List Char) (start idx : Nat)
    (h : ¬ start < cleaned.length) : slidingChunks cleaned start idx = [] := by
  unfold slidingChunks
  rw [dif_neg h]

theorem slidingChunks_single (cleaned : List Char) (h0 : cleaned ≠ [])
    (h1 : cleaned.length ≤ 1000) (h2 : stripWs cleaned = cleaned) :
    slidingChunks cleaned 0 1 = [⟨"Part 1".toList, cleaned⟩] := by
  have hpos : 0 < cleaned.length := List.length_pos.mpr h0
  have hne : cleaned.isEmpty = false := by
    cases cleaned with
    | nil => exact absurd rfl h0
    | cons c cs => rfl
  unfold slidingChunks
  rw [dif_pos hpos]
  simp only [slideCut_short cleaned h1, List.drop_zero, Nat.sub_zero,
    List.take_length, h2, hne, Bool.false_eq_true, if_false,
    slidingChunks_done cleaned cleaned.length 2 (by omega)]
  have hd : natDigits 1 = ['1'] := rfl
  rw [hd]
  rfl

/-- C5 counterexample: `"Hello world"` is shorter than 1500 characters
and has no markers, yet its single chunk is labelled `Part 1`, not
`Intro`. -/
theorem c5_counterexample :
    chunk_ocr_text "Hello world".toList ≠
      [⟨"Intro".toList, clean_ocr_text "Hello world".toList⟩] := by
  set_option maxRecDepth 100000 in decide

/-- C5 (amended): for every text whose cleaned form is non-empty, at
most 1000 characters (the fallback's `chunk_size`, not 1500), and
contains neither a line-initial section marker nor a page-marker
substring, the chunker emits exactly one chunk whose label is `Part 1`
(not `Intro`) and whose text is the full cleaned text. -/
theorem c5_short_text_single_chunk (text : List Char)
    (h1 : clean_ocr_text text ≠ [])
    (h2 : (clean_ocr_text text).length ≤ 1000)
    (h3 : hasSectionSearch (clean_ocr_text text) = false)
    (h4 : hasSub "--- Page".toList (clean_ocr_text text) = false) :
    chunk_ocr_text text = [⟨"Part 1".toList, clean_ocr_text text⟩] := by
  have ht : text.isEmpty = false := by
    cases text with
    | nil => exact absurd clean_nil h1
    | cons c cs => rfl
  unfold chunk_ocr_text
  simp only [ht, Bool.false_eq_true, if_false, h3, List.length_nil,
    Nat.not_lt_zero, Nat.lt_irrefl]
  unfold chunkStage2
  rw [h4]
  simp only [Bool.false_eq_true, if_false]
  unfold chunkStage3 fullTextFallback
  rw [List.nil_append, slidingChunks_single (clean_ocr_text text) h1 h2 (stripWs_clean text)]
  simp

/-- C5 witness: `"Hello world"` satisfies the amended hypotheses and
yields exactly the single `Part 1` chunk. -/
theorem c5_witness :
    chunk_ocr_text "Hello world".toList = [⟨"Part 1".toList, "Hello world".toList⟩] := by
  have h := c5_short_text_single_chunk "Hello world".toList
    (by decide) (by decide) (by decide) (by decide)
  rw [h]
  decide

/-! ### C1 -/

/-- C1 (code bug evaluation): `get_context_for_query` ignores
`max_chars` entirely — with a budget of 0 the returned context still
holds the full 300-character section text (318 characters in all), so no
`max_chars + marker` bound can hold and no truncation marker exists in
the code. -/
theorem c1_truncation_violated :
    300 < (get_context_for_query [c1Doc] "s1".toList 0).length := by
  set_option maxRecDepth 1000000 in decide

/-! ### C3 -/

theorem lookup_append_single {α : Type} (acc : List (List Char × α))
    (k req : List Char) (v : α) :
    (acc ++ [(k, v)]).lookup req =
      ((acc.lookup req).orElse (fun _ => if req == k then some v else none)) := by
  induction acc with
  | nil => cases h : req == k <;> simp [List.lookup, h, Option.orElse]
  | cons p t ih =>
    obtain ⟨k', v'⟩ := p
    cases h : req == k' <;> simp [List.lookup, h, ih, Option.orElse]

theorem lookup_innerFold (r : ScoredDoc) (reqs : List (List Char))
    (acc : List (List Char × (List Char × List Char × List Char))) (req : List Char) :
    (reqs.foldl
        (fun a q =>
          if (a.lookup q).isSome then a
          else
            match tryDocForLabel q r with
            | some e => a ++ [(q, e)]
            | none => a)
        acc).lookup req =
      ((acc.lookup req).orElse
        (fun _ => if req ∈ reqs then tryDocForLabel req r else none)) := by
  induction reqs generalizing acc with
  | nil =>
    simp only [List.foldl_nil, List.not_mem_nil, if_false]
    cases acc.lookup req <;> rfl
  | cons q qs ih =>
    rw [List.foldl_cons, ih]
    by_cases hq : (acc.lookup q).isSome
    · rw [if_pos hq]
      by_cases he : req = q
      · subst he
        obtain ⟨v, hv⟩ := Option.isSome_iff_exists.mp hq
        simp [hv, Option.orElse]
      · have hmc : (req ∈ q :: qs) ↔ (req ∈ qs) := by simp [List.mem_cons, he]
        simp only [hmc]
    · rw [if_neg hq]
      have hnone : acc.lookup q = none := Option.not_isSome_iff_eq_none.mp hq
      cases htry : tryDocForLabel q r with
      | some e =>
        rw [lookup_append_single]
        by_cases he : req = q
        · subst he
          simp [hnone, htry, Option.orElse]
        · have hbe : (req == q) = false := by simpa using he
          have hmem : (req ∈ q :: qs) ↔ (req ∈ qs) := by simp [List.mem_cons, he]
          simp only [hbe, Bool.false_eq_true, if_false, hmem]
          cases acc.lookup req <;> rfl
      | none =>
        by_cases he : req = q
        · subst he
          simp only [hnone, Option.orElse, htry]
          by_cases hmem : req ∈ qs <;> simp [hmem]
        · have hmem : (req ∈ q :: qs) ↔ (req ∈ qs) := by simp [List.mem_cons, he]
          simp only [hmem]

theorem lookup_buildFoundAux (reqs : List (List Char)) (results : List ScoredDoc)
    (acc : List (List Char × (List Char × List Char × List Char))) (req : List Char) :
    (results.foldl
        (fun a r =>
          reqs.foldl
            (fun a' q =>
              if (a'.lookup q).isSome then a'
              else
                match tryDocForLabel q r with
                | some e => a' ++ [(q, e)]
                | none => a')
            a)
        acc).lookup req =
      ((acc.lookup req).orElse
        (fun _ => if req ∈ reqs then firstDocMatch results req else none)) := by
  induction results generalizing acc with
  | nil =>
    simp only [List.foldl_nil, firstDocMatch, List.findSome?_nil, ite_self]
    cases acc.lookup req <;> rfl
  | cons r rs ih =>
    rw [List.foldl_cons, ih, lookup_innerFold]
    cases hl : acc.lookup req with
    | some v => rfl
    | none =>
      show (if req ∈ reqs then tryDocForLabel req r else none).orElse _ = _
      by_cases hmem : req ∈ reqs
      · simp only [if_pos hmem]
        have hcons : firstDocMatch (r :: rs) req =
            (tryDocForLabel req r).orElse (fun _ => firstDocMatch rs req) := by
          unfold firstDocMatch
          rw [List.findSome?_cons]
          cases tryDocForLabel req r <;> rfl
        rw [hcons]
        cases tryDocForLabel req r <;> rfl
      · simp only [if_neg hmem]

theorem lookup_buildFound (results : List ScoredDoc) (reqs : List (List Char))
    (req : List Char) (h : req ∈ reqs) :
    (buildFound results reqs).lookup req = firstDocMatch results req := by
  unfold buildFound
  rw [lookup_buildFoundAux]
  simp [h, Option.orElse]

/-- C3: when the (lowercased) query yields at least one requested section
label and the ranker returns at least one document,
`get_context_for_query` is exactly one line per requested label, in the
order requested, joined by blank lines: the line is
`[<matched-label>] (Source: <filename>): <text>` taken from the first
document in ranked order whose chunk labels fuzzy-match the requested
label above 85, and exactly `[<label>]: NOT FOUND in any document.` when
no top-K document has such a match. -/
theorem c3_section_report (docs : List Doc) (query : List Char) (max_chars : Nat)
    (hreq : permSectionLabels (lowerStr query) ≠ [])
    (hres : search docs query 3 ≠ []) :
    get_context_for_query docs query max_chars =
      List.intercalate ['\n', '\n']
        ((permSectionLabels (lowerStr query)).map (fun req =>
          match firstDocMatch (search docs query 3) req with
          | some (t, src, lbl) =>
            '[' :: lbl ++ "] (Source: ".toList ++ src ++ "): ".toList ++ t
          | none => '[' :: req ++ "]: NOT FOUND in any document.".toList)) := by
  have h1 : (search docs query 3).isEmpty = false := by
    cases h : search docs query 3 with
    | nil => exact absurd h hres
    | cons a as => rfl
  have h2 : (permSectionLabels (lowerStr query)).isEmpty = false := by
    cases h : permSectionLabels (lowerStr query) with
    | nil => exact absurd h hreq
    | cons a as => rfl
  unfold get_context_for_query
  simp only [h1, h2, Bool.false_eq_true, if_false]
  congr 1
  apply List.map_congr_left
  intro req hmem
  unfold reportLine
  rw [lookup_buildFound _ _ _ hmem]

/-- C3 witness (spec scenarios A and B in one query): on a store with
chunks `S1`/`S2`, the query `s1 s9` produces the `S1` line from the
best-ranked document and the exact `NOT FOUND` line for `S9`. -/
theorem c3_witness :
    get_context_for_query [c3Doc] "s1 s9".toList 3000 =
      ("[S1] (Source: f.pdf): Scope is limited.\n\n" ++
        "[S9]: NOT FOUND in any document.").toList := by
  have h := c3_section_report [c3Doc] "s1 s9".toList 3000 (by decide) (by decide)
  rw [h]
  set_option maxRecDepth 1000000 in decide

/-! ### C7

Characterization of the two query scanners: the permissive pattern
`[sz]?\s*(\d+)` captures every maximal digit run of the string, while the
strict pattern `s(\d+)` captures exactly the maximal digit runs directly
preceded by `s` — a sublist of the former. -/

theorem digitRuns_nil : digitRuns [] = [] := rfl

theorem digitRuns_cons (c : Char) (cs : List Char) :
    digitRuns (c :: cs) =
      if digitChar c then (c :: cs.takeWhile digitChar) :: digitRuns (cs.dropWhile digitChar)
      else digitRuns cs := by
  rfl

theorem findallPerm_nil : findallPerm [] = [] := rfl

theorem findallStrict_nil : findallStrict [] = [] := rfl

theorem findallStrict_cons (c : Char) (cs : List Char) :
    findallStrict (c :: cs) =
      if c == 's' && (cs.head?.elim false digitChar) then
        (cs.takeWhile digitChar) :: findallStrict (cs.dropWhile digitChar)
      else findallStrict cs := by
  rfl

theorem ws_not_digit {c : Char} (h : wsChar c = true) : digitChar c = false := by
  unfold wsChar at h
  simp only [Bool.or_eq_true, beq_iff_eq] at h
  rcases h with ((((rfl | rfl) | rfl) | rfl) | rfl) | rfl <;> decide

theorem digit_not_ws {c : Char} (h : digitChar c = true) : wsChar c = false := by
  cases hws : wsChar c with
  | false => rfl
  | true => exact absurd h (by simp [ws_not_digit hws])

theorem digit_ne_s {c : Char} (h : digitChar c = true) : (c == 's') = false := by
  cases hb : c == 's' with
  | false => rfl
  | true =>
    have : c = 's' := by simpa using hb
    subst this
    exact absurd h (by decide)

theorem sz_not_digit {c : Char} (h : (c == 's' || c == 'z') = true) :
    digitChar c = false := by
  simp only [Bool.or_eq_true, beq_iff_eq] at h
  rcases h with rfl | rfl <;> decide

theorem digitsAfterWs_ws_cons {c : Char} {cs : List Char} (h : wsChar c = true) :
    digitsAfterWs (c :: cs) = digitsAfterWs cs := by
  unfold digitsAfterWs
  rw [List.dropWhile_cons_of_pos h]

theorem digitRuns_ws_cons {c : Char} {cs : List Char} (h : wsChar c = true) :
    digitRuns (c :: cs) = digitRuns cs := by
  rw [digitRuns_cons, if_neg]
  simp [ws_not_digit h]

theorem digitsAfterWs_digitRuns {m ds rest : List Char}
    (h : digitsAfterWs m = some (ds, rest)) : digitRuns m = ds :: digitRuns rest := by
  induction m with
  | nil => exact absurd h (by simp [digitsAfterWs, takeDigits])
  | cons c cs ih =>
    by_cases hw : wsChar c
    · rw [digitsAfterWs_ws_cons hw] at h
      rw [digitRuns_ws_cons hw]
      exact ih h
    · by_cases hd : digitChar c
      · unfold digitsAfterWs at h
        rw [List.dropWhile_cons_of_neg hw] at h
        have htk : takeDigits (c :: cs) = c :: cs.takeWhile digitChar := by
          unfold takeDigits
          rw [List.takeWhile_cons_of_pos hd]
        rw [htk] at h
        have hemp : (c :: cs.takeWhile digitChar).isEmpty = false := rfl
        rw [hemp] at h
        simp only [Bool.false_eq_true, if_false, Option.some.injEq, Prod.mk.injEq] at h
        obtain ⟨hds, hrest⟩ := h
        have hdrop : (c :: cs).drop (c :: cs.takeWhile digitChar).length =
            cs.dropWhile digitChar := by
          have hstep := drop_takeWhile_length digitChar (c :: cs)
          rw [List.takeWhile_cons_of_pos hd, List.dropWhile_cons_of_pos hd] at hstep
          exact hstep
        rw [hdrop] at hrest
        rw [digitRuns_cons, if_pos hd, ← hds, ← hrest]
      · exfalso
        unfold digitsAfterWs at h
        rw [List.dropWhile_cons_of_neg hw] at h
        have htk : takeDigits (c :: cs) = [] := by
          unfold takeDigits
          rw [List.takeWhile_cons_of_neg hd]
        rw [htk] at h
        simp at h

theorem permMatchAt_digitRuns {l ds rest : List Char}
    (h : permMatchAt l = some (ds, rest)) : digitRuns l = ds :: digitRuns rest := by
  cases l with
  | nil => exact absurd h (by simp [permMatchAt])
  | cons c cs =>
    unfold permMatchAt at h
    simp only at h
    split at h
    next hsz =>
      cases hda : digitsAfterWs cs with
      | some r =>
        rw [hda] at h
        simp only [Option.some.injEq] at h
        subst h
        rw [digitRuns_cons, if_neg (by simp [sz_not_digit hsz])]
        exact digitsAfterWs_digitRuns hda
      | none =>
        rw [hda] at h
        exact digitsAfterWs_digitRuns h
    next hsz => exact digitsAfterWs_digitRuns h

theorem permMatchAt_none_digitRuns {c : Char} {cs : List Char}
    (h : permMatchAt (c :: cs) = none) : digitRuns (c :: cs) = digitRuns cs := by
  by_cases hd : digitChar c
  · exfalso
    have hs : (c == 's' || c == 'z') = false := by
      cases hb : (c == 's' || c == 'z') with
      | false => rfl
      | true => exact absurd hd (by simp [sz_not_digit hb])
    unfold permMatchAt at h
    simp only [hs, Bool.false_eq_true, if_false] at h
    unfold digitsAfterWs at h
    rw [List.dropWhile_cons_of_neg (by simp [digit_not_ws hd])] at h
    have htk : takeDigits (c :: cs) = c :: cs.takeWhile digitChar := by
      unfold takeDigits
      rw [List.takeWhile_cons_of_pos hd]
    rw [htk] at h
    simp at h
  · rw [digitRuns_cons, if_neg (by simp [hd])]

theorem perm_eq_runs_aux (n : Nat) :
    ∀ l : List Char, l.length ≤ n → findallPerm l = digitRuns l := by
  induction n with
  | zero =>
    intro l hl
    have : l = [] := by
      cases l with
      | nil => rfl
      | cons c cs => simp at hl
    subst this
    rw [findallPerm_nil, digitRuns_nil]
  | succ n ih =>
    intro l hl
    cases l with
    | nil => rw [findallPerm_nil, digitRuns_nil]
    | cons c cs =>
      unfold findallPerm
      split
      next ds rest hm =>
        rw [permMatchAt_digitRuns hm]
        have hlen : rest.length ≤ n := by
          have := permMatchAt_length hm
          simp only [List.length_cons] at this hl
          omega
        rw [ih rest hlen]
      next hm =>
        rw [permMatchAt_none_digitRuns hm]
        have hlen : cs.length ≤ n := by
          simp only [List.length_cons] at hl
          omega
        rw [ih cs hlen]

theorem perm_eq_runs (l : List Char) : findallPerm l = digitRuns l :=
  perm_eq_runs_aux l.length l (Nat.le_refl _)

theorem strict_dropWhile_digits (l : List Char) :
    findallStrict l = findallStrict (l.dropWhile digitChar) := by
  induction l with
  | nil => rfl
  | cons c cs ih =>
    by_cases hd : digitChar c
    · rw [List.dropWhile_cons_of_pos hd]
      have hstep : findallStrict (c :: cs) = findallStrict cs := by
        rw [findallStrict_cons, if_neg]
        simp [digit_ne_s hd]
      rw [hstep, ih]
    · rw [List.dropWhile_cons_of_neg hd]

theorem strict_sub_runs_aux (n : Nat) :
    ∀ l : List Char, l.length ≤ n → (findallStrict l).Sublist (digitRuns l) := by
  induction n with
  | zero =>
    intro l hl
    have : l = [] := by
      cases l with
      | nil => rfl
      | cons c cs => simp at hl
    subst this
    rw [findallStrict_nil, digitRuns_nil]
  | succ n ih =>
    intro l hl
    cases l with
    | nil => rw [findallStrict_nil, digitRuns_nil]
    | cons c cs =>
      simp only [List.length_cons] at hl
      by_cases hcond : (c == 's' && (cs.head?.elim false digitChar)) = true
      · have hs : c = 's' := by
          simp only [Bool.and_eq_true, beq_iff_eq] at hcond
          exact hcond.1
        obtain ⟨d, ds, rfl⟩ : ∃ d ds, cs = d :: ds := by
          cases cs with
          | nil => simp at hcond
          | cons d ds => exact ⟨d, ds, rfl⟩
        have hd : digitChar d = true := by
          simp only [Bool.and_eq_true] at hcond
          simpa using hcond.2
        have hstrict : findallStrict (c :: d :: ds) =
            ((d :: ds).takeWhile digitChar) ::
              findallStrict ((d :: ds).dropWhile digitChar) := by
          rw [findallStrict_cons, if_pos hcond]
        have hruns : digitRuns (c :: d :: ds) =
            ((d :: ds).takeWhile digitChar) ::
              digitRuns ((d :: ds).dropWhile digitChar) := by
          subst hs
          rw [digitRuns_cons, if_neg (by decide), digitRuns_cons, if_pos hd,
            List.takeWhile_cons_of_pos hd, List.dropWhile_cons_of_pos hd]
        rw [hstrict, hruns]
        refine List.Sublist.cons₂ _ (ih _ ?_)
        rw [List.dropWhile_cons_of_pos hd]
        have := dropWhileLen digitChar ds
        simp only [List.length_cons] at hl
        omega
      · have hstrict : findallStrict (c :: cs) = findallStrict cs := by
          rw [findallStrict_cons, if_neg hcond]
        rw [hstrict]
        by_cases hd : digitChar c
        · rw [digitRuns_cons, if_pos hd]
          rw [strict_dropWhile_digits cs]
          refine List.Sublist.cons _ (ih _ ?_)
          have := dropWhileLen digitChar cs
          omega
        · rw [digitRuns_cons, if_neg (by simp [hd])]
          exact ih cs (by omega)

theorem strict_sub_runs (l : List Char) :
    (findallStrict l).Sublist (digitRuns l) :=
  strict_sub_runs_aux l.length l (Nat.le_refl _)

/-- C7 counterexample: on the query `s 12` — one of the very OCR-noise
forms the spec cites — the snippet extractor resolves no labels while
the ranker extracts `S12`. -/
theorem c7_counterexample :
    strictSectionLabels (lowerStr "s 12".toList) ≠
      permSectionLabels (lowerStr "s 12".toList) := by
  decide

/-- C7 (amended): the two parsers differ — `extract_relevant_snippet`
uses the strict pattern `s(\d+)` (store.py:221), not the permissive
`[sz]?\s*(\d+)` of `search` (store.py:164).  For every query, the
extractor's labels are a sublist of the ranker's labels (the permissive
pattern captures every maximal digit run; the strict one only the runs
directly preceded by `s`), with equality for queries like `s2` but not
for `s 12`, `sz12`, or bare numbers. -/
theorem c7_strict_sublist_perm (query : List Char) :
    (strictSectionLabels (lowerStr query)).Sublist
      (permSectionLabels (lowerStr query)) := by
  unfold strictSectionLabels permSectionLabels
  rw [perm_eq_runs]
  exact (strict_sub_runs (lowerStr query)).map _

end DocuMind

